import Mathlib

/-!
Verification development for the learn-clojure repository core:
the markdown segmenter (`markdownToHtml` in `src/lib/markdownToHtml.js`,
mirrored at `src/unnamed/part_016`) and the content-tree loader
(`src/lib/api.js`, mirrored at `src/unnamed/part_017`), together with the
per-code-block view logic of `PostBody` (`src/app/_components/post-body.jsx`,
mirrored at `src/unnamed/part_018`).

Strings are embedded as `List Char`.  JavaScript regular-expression scanning
is embedded as an explicit left-to-right scanner with a fuel parameter equal
to the input length (each step consumes at least one character, so the fuel
never runs out on the wrappers below); this keeps every definition
structurally recursive and executable by `decide`.
-/

namespace LearnClojure

open scoped List

deriving instance DecidableEq for Except

/-- The backtick character (the source writes it inside regex literals). -/
def btick : Char := Char.ofNat 96

/-- The sentinel string `---CODE-BLOCK-PLACEHOLDER---` used by
`markdownToHtml` (part_016 line 7) to mark code-block positions. -/
def placeholder : List Char := "---CODE-BLOCK-PLACEHOLDER---".toList

/-- The core of the sentinel, without its dash borders. -/
def sentinelCore : List Char := "CODE-BLOCK-PLACEHOLDER".toList

/-- The regex character class `[a-z]` from part_016 line 5. -/
def isLowerAZ (c : Char) : Bool := 'a' ≤ c && c ≤ 'z'

/-- The regex character class `[^backtick]` from part_016 line 5. -/
def notBT (c : Char) : Bool := c != btick

/-- One attempt of the regex `{3 backticks}([a-z]*)([^backtick]*){3 backticks}`
at the start of `cs` (part_016 line 5).  Both capture groups are greedy; the
match succeeds exactly when, after the maximal lowercase-letter run and the
maximal backtick-free run, three closing backticks follow.  Returns the two
capture groups and the remainder of the input after the match. -/
def tryMatch (cs : List Char) : Option ((List Char × List Char) × List Char) :=
  match cs with
  | c0 :: c1 :: c2 :: rest =>
    if c0 = btick ∧ c1 = btick ∧ c2 = btick then
      let lang := rest.takeWhile isLowerAZ
      let rest1 := rest.dropWhile isLowerAZ
      let content := rest1.takeWhile notBT
      let rest2 := rest1.dropWhile notBT
      match rest2 with
      | d0 :: d1 :: d2 :: r =>
        if d0 = btick ∧ d1 = btick ∧ d2 = btick then some ((lang, content), r)
        else none
      | _ => none
    else none
  | _ => none

/-- Left-to-right global scan collecting all matches, as
`[...markdown.matchAll(re)]` (part_016 line 6) does: on a match the scan
resumes after the match, otherwise it advances one character. -/
def scanMatches : Nat → List Char → List (List Char × List Char)
  | 0, _ => []
  | fuel + 1, cs =>
    match tryMatch cs with
    | some (lc, rest) => lc :: scanMatches fuel rest
    | none =>
      match cs with
      | [] => []
      | _ :: t => scanMatches fuel t

/-- All regex matches of the fence regex in a body (part_016 line 6). -/
def fenceScan (cs : List Char) : List (List Char × List Char) :=
  scanMatches cs.length cs

/-- The result of `markdown.replaceAll(re, "---CODE-BLOCK-PLACEHOLDER---")`
(part_016 line 7): each match is replaced by the sentinel. -/
def replaceScan : Nat → List Char → List Char
  | 0, _ => []
  | fuel + 1, cs =>
    match tryMatch cs with
    | some (_, rest) => placeholder ++ replaceScan fuel rest
    | none =>
      match cs with
      | [] => []
      | c :: t => c :: replaceScan fuel t

/-- Wrapper for `replaceScan` with sufficient fuel. -/
def replaceFences (cs : List Char) : List Char :=
  replaceScan cs.length cs

/-- Prepend a character to the first piece of a piece list. -/
def consHead (c : Char) : List (List Char) → List (List Char)
  | [] => [[c]]
  | p :: ps => (c :: p) :: ps

/-- `String.prototype.split` on the (nonempty) sentinel (part_016 line 7):
pieces between leftmost non-overlapping sentinel occurrences. -/
def splitScan : Nat → List Char → List (List Char)
  | 0, _ => [[]]
  | fuel + 1, cs =>
    if placeholder.isPrefixOf cs then [] :: splitScan fuel (cs.drop placeholder.length)
    else
      match cs with
      | [] => [[]]
      | c :: t => consHead c (splitScan fuel t)

/-- Wrapper for `splitScan` with sufficient fuel. -/
def splitPlaceholder (cs : List Char) : List (List Char) :=
  splitScan cs.length cs

/-- JavaScript `String.prototype.trim` restricted to the ASCII whitespace
that occurs in markdown bodies (space, tab, carriage return, newline). -/
def trimL (cs : List Char) : List Char :=
  ((cs.dropWhile Char.isWhitespace).reverse.dropWhile Char.isWhitespace).reverse

/-- One output element of `markdownToHtml`: a rendered prose span
(`{"html": ...}`) or a code block (`{"code": {lang, content}}`). -/
inductive Segment where
  | prose (html : List Char)
  | code (lang : List Char) (content : List Char)
deriving DecidableEq

/-- The interleaving loop of part_016 lines 10-20: for each split part push a
prose segment, and while matches remain shift one and push a code segment
with trimmed content.  The `await parts.forEach` of the source is modelled as
the sequential loop it expresses; the external `remark` renderer is the
`render` parameter. -/
def interleave (render : List Char → List Char) :
    List (List Char) → List (List Char × List Char) → List Segment
  | [], _ => []
  | p :: ps, [] => .prose (render p) :: interleave render ps []
  | p :: ps, (l, c) :: ms =>
    .prose (render p) :: .code l (trimL c) :: interleave render ps ms

/-- `markdownToHtml` (part_016 lines 4-23): collect the regex matches,
replace every match by the sentinel, split on the sentinel, and interleave
rendered prose parts with trimmed code blocks. -/
def markdownToHtml (render : List Char → List Char) (markdown : List Char) :
    List Segment :=
  interleave render (splitPlaceholder (replaceFences markdown)) (fenceScan markdown)

/-- Number of prose segments in a segment list. -/
def countProse (segs : List Segment) : Nat :=
  segs.countP fun s => match s with | .prose _ => true | .code _ _ => false

/-- Number of code segments in a segment list. -/
def countCode (segs : List Segment) : Nat :=
  segs.countP fun s => match s with | .prose _ => false | .code _ _ => true

/-- The segment list alternates prose, code, prose, ..., code, prose:
it starts and ends with a prose segment and strictly alternates. -/
def alternatesPC : List Segment → Bool
  | [Segment.prose _] => true
  | Segment.prose _ :: Segment.code _ _ :: rest => alternatesPC rest
  | _ => false

/-- Proof helper: the prose gaps between matches, in order.  A body with `n`
matches has `n + 1` gaps; the replaced text is the gaps joined by the
sentinel. -/
def gapScan : Nat → List Char → List (List Char)
  | 0, _ => [[]]
  | fuel + 1, cs =>
    match tryMatch cs with
    | some (_, rest) => [] :: gapScan fuel rest
    | none =>
      match cs with
      | [] => [[]]
      | c :: t => consHead c (gapScan fuel t)

/-- Join a list of pieces with the sentinel between consecutive pieces. -/
def joinP : List (List Char) → List Char
  | [] => []
  | [g] => g
  | g :: gs => g ++ placeholder ++ joinP gs

/-- Alternating concatenation: prose piece, code content, prose piece, ... -/
def joinInterleave : List (List Char) → List (List Char) → List Char
  | [], _ => []
  | p :: ps, [] => p ++ joinInterleave ps []
  | p :: ps, c :: cs => p ++ c ++ joinInterleave ps cs

/-- The body with every well-formed fence replaced by its inner content
(fence delimiters and language tag removed): the reference reconstruction
target for the round-trip property. -/
def stripScan : Nat → List Char → List Char
  | 0, _ => []
  | fuel + 1, cs =>
    match tryMatch cs with
    | some ((_, c), rest) => c ++ stripScan fuel rest
    | none =>
      match cs with
      | [] => []
      | ch :: t => ch :: stripScan fuel t

/-- Wrapper for `stripScan` with sufficient fuel. -/
def stripFences (cs : List Char) : List Char :=
  stripScan cs.length cs

/-! Section: PostBody per-code-block view (part_018 = post-body.jsx) -/

/-- The reserved non-runnable marker tag. -/
def evalOffTag : List Char := "clojureevaloff".toList

/-- The displayed language for a non-runnable block. -/
def clojureTag : List Char := "clojure".toList

/-- The data handed to the CodeBlock widget. -/
structure BlockView where
  language : List Char
  allowEval : Bool
  content : List Char
deriving DecidableEq

/-- Per-code-block logic of `PostBody` (part_018 lines 10-13):
`allowEval = lang !== "clojureevaloff"` and the displayed language maps
`"clojureevaloff"` to `"clojure"`, leaving every other tag unchanged. -/
def renderCodeBlock (lang content : List Char) : BlockView :=
  { language := if lang = evalOffTag then clojureTag else lang
    allowEval := lang != evalOffTag
    content := content }

/-! Section: Content tree loader (part_017 = src/lib/api.js)

The filesystem is passed explicitly: `files` is the result of
`fs.readdirSync(dir, {recursive: true})` in enumeration order, and `read`
abstracts `fs.readFileSync` composed with the external front-matter parser
`gray-matter` (out of scope per the spec), returning the parsed header
fields and body for an existing relative path and `none` for a missing one
(where `readFileSync` throws — the spec's `NotFoundError`). -/

/-- Parsed front matter plus body of one content file. -/
structure FileMeta where
  title : List Char
  sequence : Int
  content : List Char
deriving DecidableEq

/-- The explicit filesystem input. -/
structure FS where
  files : List (List Char)
  read : List Char → Option FileMeta

/-- The record `{...data, slug, content}` returned by `getChapter`. -/
structure Document where
  title : List Char
  sequence : Int
  slug : List Char
  content : List Char
deriving DecidableEq

/-- Typed load failures. -/
inductive LoadError where
  | notFound (path : List Char)
deriving DecidableEq

def slash : Char := '/'

def mdSuffix : List Char := ".md".toList

def readmeSuffix : List Char := "readme.md".toList

/-- The path `chapter/part.md` computed by `getChapter` (part_017 line 13). -/
def chapterPath (chapter part : List Char) : List Char :=
  chapter ++ [slash] ++ part ++ mdSuffix

/-- `getChapter` (part_017 lines 11-18): read and parse the file at
`chapter/part.md`; a missing file fails with `NotFoundError`. -/
def getChapter (read : List Char → Option FileMeta) (chapter part : List Char) :
    Except LoadError Document :=
  match read (chapterPath chapter part) with
  | some m => .ok ⟨m.title, m.sequence, chapter ++ [slash] ++ part, m.content⟩
  | none => .error (.notFound (chapterPath chapter part))

/-- `String.prototype.split` on a single separator character. -/
def splitOnChar (sep : Char) : List Char → List (List Char)
  | [] => [[]]
  | c :: t =>
    if c = sep then [] :: splitOnChar sep t else consHead c (splitOnChar sep t)

/-- `getChapterByPath` (part_017 lines 20-24): strip one trailing `.md`,
split on `/`, and destructure `[chapter, part]` with `part` defaulting to
`readme`; any third path segment is ignored, as in the source. -/
def getChapterByPath (read : List Char → Option FileMeta) (path : List Char) :
    Except LoadError Document :=
  let base := if mdSuffix.isSuffixOf path then path.take (path.length - 3) else path
  match splitOnChar slash base with
  | [c] => getChapter read c ("readme".toList)
  | c :: p :: _ => getChapter read c p
  | [] => getChapter read [] ("readme".toList)

/-- `Array.prototype.map` over a fallible callback: the first failure aborts,
as a thrown exception does in JavaScript. -/
def mapExcept (f : α → Except ε β) : List α → Except ε (List β)
  | [] => .ok []
  | x :: xs => do
    let y ← f x
    let ys ← mapExcept f xs
    pure (y :: ys)

/-- Stable insertion: `x` goes before the first element `y` with `le x y`. -/
def insertLe (le : α → α → Bool) (x : α) : List α → List α
  | [] => [x]
  | y :: ys => if le x y then x :: y :: ys else y :: insertLe le x ys

/-- Insertion sort by a boolean `le`.  This models `Array.prototype.sort`
with the comparator `jsCompare` used throughout part_017.  On inputs whose
`sequence` keys are pairwise distinct the comparator is a consistent
comparison function, ECMA-262 mandates the unique order sorted by
`a.sequence ≤ b.sequence` (where the comparator is non-positive), and this
sort realises it.  On tied keys the comparator never returns 0 and is
inconsistent, so ECMA-262 leaves the engine order implementation-defined
(see claim C5); no theorem in this file relies on this model's tie order. -/
def sortLe (le : α → α → Bool) : List α → List α
  | [] => []
  | x :: xs => insertLe le x (sortLe le xs)

/-- The comparator key of part_017 lines 31 and 47. -/
def seqLe (a b : Document) : Bool := decide (a.sequence ≤ b.sequence)

/-- Sort documents ascending by `sequence`. -/
def sortBySequence (docs : List Document) : List Document := sortLe seqLe docs

/-- The documents of all `.md` files, in discovery order (part_017 lines
27-30, before the sort). -/
def discoveredDocs (fs : FS) : Except LoadError (List Document) :=
  mapExcept (getChapterByPath fs.read) (fs.files.filter fun n => mdSuffix.isSuffixOf n)

/-- `getAllChapters` (part_017 lines 26-34). -/
def getAllChapters (fs : FS) : Except LoadError (List Document) := do
  let docs ← discoveredDocs fs
  pure (sortBySequence docs)

/-- One entry of `getChaptersTree`'s result. -/
structure ChapterNode where
  dir : Document
  pages : List Document
deriving DecidableEq

/-- The page paths: `.md` files that are not a `readme.md` (part_017 lines
38-39). -/
def pagesOf (files : List (List Char)) : List (List Char) :=
  (files.filter fun n => mdSuffix.isSuffixOf n).filter
    fun n => !(readmeSuffix.isSuffixOf n)

/-- The chapter directories: entries not ending in `.md` (part_017 line 40). -/
def dirsOf (files : List (List Char)) : List (List Char) :=
  files.filter fun n => !(mdSuffix.isSuffixOf n)

/-- One chapter of `getChaptersTree` (part_017 lines 42-48): the directory's
own document plus the sequence-sorted documents of the pages whose path
starts with the directory name (`page.startsWith(dir)`). -/
def chapterNode (read : List Char → Option FileMeta) (pages : List (List Char))
    (d : List Char) : Except LoadError ChapterNode := do
  let dd ← getChapterByPath read d
  let ps ← mapExcept (getChapterByPath read) (pages.filter fun p => d.isPrefixOf p)
  pure ⟨dd, sortBySequence ps⟩

/-- The comparator key of part_017 line 49. -/
def nodeLe (a b : ChapterNode) : Bool := decide (a.dir.sequence ≤ b.dir.sequence)

/-- `getChaptersTree` (part_017 lines 36-50). -/
def getChaptersTree (fs : FS) : Except LoadError (List ChapterNode) := do
  let nodes ← mapExcept (chapterNode fs.read (pagesOf fs.files)) (dirsOf fs.files)
  pure (sortLe nodeLe nodes)

/-- The filesystem of the C4 scenario: one chapter with an index of
sequence 0 and two parts with sequences 2 and 1. -/
def c4read : List Char → Option FileMeta := fun p =>
  if p = "intro/readme.md".toList then some ⟨"Intro".toList, 0, "i".toList⟩
  else if p = "intro/one.md".toList then some ⟨"One".toList, 1, "p1".toList⟩
  else if p = "intro/two.md".toList then some ⟨"Two".toList, 2, "p2".toList⟩
  else none

/-- One enumeration order of the C4 scenario's directory entries. -/
def c4files : List (List Char) :=
  ["intro".toList, "intro/readme.md".toList, "intro/two.md".toList,
   "intro/one.md".toList]

/-- The filesystem of the C6 counterexample: chapter ids `intro` and
`intro2`, where `intro` is a string prefix of `intro2`. -/
def c6read : List Char → Option FileMeta := fun p =>
  if p = "intro/readme.md".toList then some ⟨"Intro".toList, 0, "i".toList⟩
  else if p = "intro2/readme.md".toList then some ⟨"Intro2".toList, 1, "j".toList⟩
  else if p = "intro2/a.md".toList then some ⟨"A".toList, 2, "a".toList⟩
  else none

/-- Enumeration order of the C6 counterexample. -/
def c6files : List (List Char) :=
  ["intro".toList, "intro2".toList, "intro/readme.md".toList,
   "intro2/readme.md".toList, "intro2/a.md".toList]

/-- The comparator passed to `Array.prototype.sort` in part_017 lines 31, 47
and 49, verbatim: `(a, b) => (a.sequence > b.sequence ? 1 : -1)`. -/
def jsCompare (a b : Document) : Int :=
  if a.sequence > b.sequence then 1 else -1

/-- The full matched text `m[0]` of one regex match: opening fence, language
tag, content, closing fence. -/
def matchText (l c : List Char) : List Char :=
  btick :: btick :: btick :: (l ++ c ++ [btick, btick, btick])

/-- Number of backtick characters in a string. -/
def countBT (cs : List Char) : Nat := cs.countP fun ch => ch == btick


/-! Section: Structure of a single regex match -/

theorem tryMatch_shape {cs l c r : List Char}
    (h : tryMatch cs = some ((l, c), r)) :
    cs = btick :: btick :: btick :: (l ++ c ++ (btick :: btick :: btick :: r)) ∧
      ∀ ch ∈ c, notBT ch = true := by
  unfold tryMatch at h
  match cs, h with
  | c0 :: c1 :: c2 :: rest, h =>
    simp only at h
    split at h
    · rename_i hb
      obtain ⟨hb0, hb1, hb2⟩ := hb
      subst hb0; subst hb1; subst hb2
      set rest1 := rest.dropWhile isLowerAZ with hrest1
      split at h
      · rename_i d0 d1 d2 r' hr2
        split at h
        · rename_i hd
          obtain ⟨hd0, hd1, hd2⟩ := hd
          injection h with h
          injection h with h1 h2
          injection h1 with hl hc
          subst hl; subst hc; subst h2; subst hd0; subst hd1; subst hd2
          constructor
          · have e1 : rest.takeWhile isLowerAZ ++ rest1 = rest :=
              List.takeWhile_append_dropWhile ..
            have e2 : rest1.takeWhile notBT ++ (btick :: btick :: btick :: r') = rest1 := by
              rw [← hr2]; exact List.takeWhile_append_dropWhile ..
            simp only [List.cons.injEq, List.append_assoc, true_and]
            conv_lhs => rw [← e1]
            conv_lhs => rw [← e2]
          · intro ch hch
            exact List.mem_takeWhile_imp hch
        · exact absurd h (by simp)
      · exact absurd h (by simp)
    · exact absurd h (by simp)

theorem tryMatch_length {cs l c r : List Char}
    (h : tryMatch cs = some ((l, c), r)) :
    cs.length = l.length + c.length + r.length + 6 := by
  obtain ⟨hs, -⟩ := tryMatch_shape h
  rw [hs]; simp; omega

theorem tryMatch_isSfx {cs l c r : List Char}
    (h : tryMatch cs = some ((l, c), r)) : r <:+ cs := by
  obtain ⟨hs, -⟩ := tryMatch_shape h
  refine ⟨btick :: btick :: btick :: (l ++ c ++ [btick, btick, btick]), ?_⟩
  rw [hs]; simp

/-! Section: Combinatorial facts about the sentinel string -/

theorem placeholder_len : placeholder.length = 28 := by decide

theorem core_in_placeholder : sentinelCore <:+: placeholder :=
  ⟨"---".toList, "---".toList, by decide⟩

theorem core_in_take25 : sentinelCore <:+: placeholder.take 25 :=
  ⟨"---".toList, [], by decide⟩

/-- The sentinel has no border of length 4..27: no proper prefix of length at
least 4 is also a suffix. -/
theorem placeholder_border :
    ∀ k < 28, 4 ≤ k → placeholder.take k ≠ placeholder.drop (28 - k) := by
  decide

theorem core_not_in_nil : ¬ sentinelCore <:+: ([] : List Char) := by decide

/-- If `g` is nonempty and does not contain the sentinel core, then the
sentinel is not a prefix of `g ++ placeholder ++ T`: no sentinel occurrence
can start strictly inside `g`. -/
theorem no_ph_pre {g T : List Char} (hq : ¬ sentinelCore <:+: g) (hne : g ≠ []) :
    ¬ placeholder <+: g ++ (placeholder ++ T) := by
  intro hP
  by_cases hlen : 28 ≤ g.length
  · have hg : placeholder <+: g :=
      List.prefix_of_prefix_length_le hP (List.prefix_append g (placeholder ++ T))
        (by rw [placeholder_len]; exact hlen)
    exact hq (core_in_placeholder.trans hg.isInfix)
  · push_neg at hlen
    have hgP : g <+: placeholder :=
      List.prefix_of_prefix_length_le (List.prefix_append g (placeholder ++ T)) hP
        (by rw [placeholder_len]; omega)
    have hgtake : g = placeholder.take g.length := List.prefix_iff_eq_take.mp hgP
    have hsplit : g ++ placeholder.drop g.length = placeholder := by
      nth_rewrite 1 [hgtake]
      exact List.take_append_drop ..
    have h1 : g ++ placeholder.drop g.length <+: g ++ (placeholder ++ T) := by
      rw [hsplit]; exact hP
    have h2 : placeholder.drop g.length <+: placeholder ++ T :=
      (List.prefix_append_right_inj g).mp h1
    have hrlen : (placeholder.drop g.length).length = 28 - g.length := by
      rw [List.length_drop, placeholder_len]
    have hr28 : (placeholder.drop g.length).length ≤ placeholder.length := by
      rw [hrlen, placeholder_len]; omega
    have h3 : placeholder.drop g.length <+: placeholder :=
      List.prefix_of_prefix_length_le h2 (List.prefix_append placeholder T) hr28
    have hgpos : 0 < g.length := List.length_pos.mpr hne
    by_cases hsmall : 4 ≤ 28 - g.length
    · refine placeholder_border (28 - g.length) (by omega) hsmall ?_
      have := List.prefix_iff_eq_take.mp h3
      rw [hrlen] at this
      rw [← this]
      congr 1
      omega
    · have hk25 : 25 ≤ g.length := by omega
      have htp : placeholder.take 25 <+: g := by
        rw [hgtake]
        exact List.take_prefix_take_left _ hk25
      exact hq (core_in_take25.trans htp.isInfix)

/-! Section: Fuel irrelevance and scanner structure -/

theorem joinP_pair (g g2 : List Char) (gs : List (List Char)) :
    joinP (g :: g2 :: gs) = g ++ placeholder ++ joinP (g2 :: gs) := rfl

theorem consHead_cons (c : Char) (p : List Char) (ps : List (List Char)) :
    consHead c (p :: ps) = (c :: p) :: ps := rfl

theorem scanMatches_nil (f : Nat) : scanMatches f [] = [] := by
  cases f <;> rfl

theorem scanMatches_some {cs rest : List Char} {lc : List Char × List Char}
    (f : Nat) (h : tryMatch cs = some (lc, rest)) :
    scanMatches (f + 1) cs = lc :: scanMatches f rest := by
  simp [scanMatches, h]

theorem scanMatches_none {c : Char} {t : List Char}
    (f : Nat) (h : tryMatch (c :: t) = none) :
    scanMatches (f + 1) (c :: t) = scanMatches f t := by
  simp [scanMatches, h]

theorem replaceScan_nil (f : Nat) : replaceScan f [] = [] := by
  cases f <;> rfl

theorem replaceScan_some {cs rest : List Char} {lc : List Char × List Char}
    (f : Nat) (h : tryMatch cs = some (lc, rest)) :
    replaceScan (f + 1) cs = placeholder ++ replaceScan f rest := by
  simp [replaceScan, h]

theorem replaceScan_none {c : Char} {t : List Char}
    (f : Nat) (h : tryMatch (c :: t) = none) :
    replaceScan (f + 1) (c :: t) = c :: replaceScan f t := by
  simp [replaceScan, h]

theorem gapScan_zero (cs : List Char) : gapScan 0 cs = [[]] := rfl

theorem gapScan_nil (f : Nat) : gapScan f [] = [[]] := by
  cases f <;> rfl

theorem gapScan_some {cs rest : List Char} {lc : List Char × List Char}
    (f : Nat) (h : tryMatch cs = some (lc, rest)) :
    gapScan (f + 1) cs = [] :: gapScan f rest := by
  simp [gapScan, h]

theorem gapScan_none {c : Char} {t : List Char}
    (f : Nat) (h : tryMatch (c :: t) = none) :
    gapScan (f + 1) (c :: t) = consHead c (gapScan f t) := by
  simp [gapScan, h]

theorem stripScan_nil (f : Nat) : stripScan f [] = [] := by
  cases f <;> rfl

theorem stripScan_some {cs rest l c : List Char}
    (f : Nat) (h : tryMatch cs = some ((l, c), rest)) :
    stripScan (f + 1) cs = c ++ stripScan f rest := by
  simp [stripScan, h]

theorem stripScan_none {c : Char} {t : List Char}
    (f : Nat) (h : tryMatch (c :: t) = none) :
    stripScan (f + 1) (c :: t) = c :: stripScan f t := by
  simp [stripScan, h]

theorem splitScan_nil (f : Nat) : splitScan f ([] : List Char) = [[]] := by
  cases f with
  | zero => rfl
  | succ f =>
    have hp : placeholder.isPrefixOf ([] : List Char) = false := by decide
    simp [splitScan, hp]

theorem splitScan_pos {cs : List Char} (f : Nat)
    (h : placeholder.isPrefixOf cs = true) :
    splitScan (f + 1) cs = [] :: splitScan f (cs.drop placeholder.length) := by
  simp [splitScan, h]

theorem splitScan_neg {c : Char} {t : List Char} (f : Nat)
    (h : placeholder.isPrefixOf (c :: t) = false) :
    splitScan (f + 1) (c :: t) = consHead c (splitScan f t) := by
  simp [splitScan, h]

theorem splitScan_fuel :
    ∀ f1 f2 (cs : List Char), cs.length ≤ f1 → cs.length ≤ f2 →
      splitScan f1 cs = splitScan f2 cs := by
  intro f1
  induction f1 with
  | zero =>
    intro f2 cs h1 h2
    have : cs = [] := List.eq_nil_of_length_eq_zero (Nat.le_zero.mp h1)
    subst this
    rw [splitScan_nil, splitScan_nil]
  | succ f1 ih =>
    intro f2 cs h1 h2
    cases f2 with
    | zero =>
      have : cs = [] := List.eq_nil_of_length_eq_zero (Nat.le_zero.mp h2)
      subst this
      rw [splitScan_nil, splitScan_nil]
    | succ f2 =>
      by_cases hp : placeholder.isPrefixOf cs = true
      · rw [splitScan_pos f1 hp, splitScan_pos f2 hp]
        have hlen : 28 ≤ cs.length := by
          have hpp := List.isPrefixOf_iff_prefix.mp hp
          have := hpp.length_le
          rw [placeholder_len] at this
          exact this
        have hdl : (cs.drop placeholder.length).length = cs.length - 28 := by
          rw [List.length_drop, placeholder_len]
        rw [ih f2 (cs.drop placeholder.length) (by omega) (by omega)]
      · rw [Bool.not_eq_true] at hp
        cases cs with
        | nil => rw [splitScan_nil, splitScan_nil]
        | cons c t =>
          have ht : t.length ≤ f1 := by simp at h1; omega
          have ht2 : t.length ≤ f2 := by simp at h2; omega
          rw [splitScan_neg f1 hp, splitScan_neg f2 hp, ih f2 t ht ht2]

theorem gapScan_ne_nil : ∀ f (cs : List Char), gapScan f cs ≠ [] := by
  intro f
  induction f with
  | zero => intro cs; rw [gapScan_zero]; simp
  | succ f ih =>
    intro cs
    cases htm : tryMatch cs with
    | some lcr =>
      obtain ⟨lc, rest⟩ := lcr
      rw [gapScan_some f htm]
      simp
    | none =>
      cases cs with
      | nil => rw [gapScan_nil]; simp
      | cons c t =>
        rw [gapScan_none f htm]
        cases hg : gapScan f t with
        | nil => exact absurd hg (ih t)
        | cons g gs => rw [consHead_cons]; simp

theorem gapScan_length : ∀ f (cs : List Char),
    (gapScan f cs).length = (scanMatches f cs).length + 1 := by
  intro f
  induction f with
  | zero => intro cs; rfl
  | succ f ih =>
    intro cs
    cases htm : tryMatch cs with
    | some lcr =>
      obtain ⟨lc, rest⟩ := lcr
      rw [gapScan_some f htm, scanMatches_some f htm]
      simp [ih]
    | none =>
      cases cs with
      | nil => rw [gapScan_nil, scanMatches_nil]; rfl
      | cons c t =>
        rw [gapScan_none f htm, scanMatches_none f htm]
        have h := ih t
        cases hg : gapScan f t with
        | nil => exact absurd hg (gapScan_ne_nil f t)
        | cons g gs =>
          rw [hg] at h
          rw [consHead_cons]
          simpa using h

theorem replaceScan_eq_joinP : ∀ f (cs : List Char),
    replaceScan f cs = joinP (gapScan f cs) := by
  intro f
  induction f with
  | zero => intro cs; rfl
  | succ f ih =>
    intro cs
    cases htm : tryMatch cs with
    | some lcr =>
      obtain ⟨lc, rest⟩ := lcr
      rw [replaceScan_some f htm, gapScan_some f htm]
      cases hg : gapScan f rest with
      | nil => exact absurd hg (gapScan_ne_nil f rest)
      | cons g gs =>
        have hr := ih rest
        rw [hg] at hr
        rw [hr, joinP_pair]
        simp
    | none =>
      cases cs with
      | nil => rw [replaceScan_nil, gapScan_nil]; rfl
      | cons c t =>
        rw [replaceScan_none f htm, gapScan_none f htm]
        cases hg : gapScan f t with
        | nil => exact absurd hg (gapScan_ne_nil f t)
        | cons g gs =>
          have hr := ih t
          rw [hg] at hr
          rw [consHead_cons]
          cases gs with
          | nil =>
            simp only [joinP] at hr ⊢
            rw [hr]
          | cons g2 gs2 =>
            rw [joinP_pair]
            rw [joinP_pair] at hr
            rw [hr]
            simp

theorem gapScan_head_pre : ∀ f (cs : List Char) g gs,
    gapScan f cs = g :: gs → g <+: cs := by
  intro f
  induction f with
  | zero =>
    intro cs g gs h
    rw [gapScan_zero] at h
    injection h with h1 _
    subst h1
    exact List.nil_prefix
  | succ f ih =>
    intro cs g gs h
    cases htm : tryMatch cs with
    | some lcr =>
      obtain ⟨lc, rest⟩ := lcr
      rw [gapScan_some f htm] at h
      injection h with h1 _
      subst h1
      exact List.nil_prefix
    | none =>
      cases cs with
      | nil =>
        rw [gapScan_nil] at h
        injection h with h1 _
        subst h1
        exact List.nil_prefix
      | cons c t =>
        rw [gapScan_none f htm] at h
        cases hg : gapScan f t with
        | nil => exact absurd hg (gapScan_ne_nil f t)
        | cons g0 gs0 =>
          rw [hg, consHead_cons] at h
          injection h with h1 _
          subst h1
          exact List.cons_prefix_cons.mpr ⟨rfl, ih t g0 gs0 hg⟩

/-- The prose gaps of a body that does not contain the sentinel core do not
contain the sentinel core either. -/
theorem gapScan_no_core : ∀ f (cs : List Char), ¬ sentinelCore <:+: cs →
    ∀ g ∈ gapScan f cs, ¬ sentinelCore <:+: g := by
  intro f
  induction f with
  | zero =>
    intro cs _ g hg
    rw [gapScan_zero] at hg
    simp at hg
    subst hg
    exact core_not_in_nil
  | succ f ih =>
    intro cs hq g hg
    cases htm : tryMatch cs with
    | some lcr =>
      obtain ⟨lc, rest⟩ := lcr
      rw [gapScan_some f htm] at hg
      rcases List.mem_cons.mp hg with h | h
      · subst h; exact core_not_in_nil
      · have hrest : ¬ sentinelCore <:+: rest := fun hc =>
          hq (hc.trans (tryMatch_isSfx htm).isInfix)
        exact ih rest hrest g h
    | none =>
      cases cs with
      | nil =>
        rw [gapScan_nil] at hg
        simp at hg
        subst hg
        exact core_not_in_nil
      | cons c t =>
        rw [gapScan_none f htm] at hg
        have hqt : ¬ sentinelCore <:+: t := fun hc => hq (List.infix_cons hc)
        cases hgt : gapScan f t with
        | nil => exact absurd hgt (gapScan_ne_nil f t)
        | cons g0 gs0 =>
          rw [hgt, consHead_cons] at hg
          rcases List.mem_cons.mp hg with h | h
          · subst h
            intro hc
            rcases List.infix_cons_iff.mp hc with hpre | hinf
            · have hhd : (c :: g0) <+: (c :: t) :=
                List.cons_prefix_cons.mpr ⟨rfl, gapScan_head_pre f t g0 gs0 hgt⟩
              exact hq (hpre.trans hhd).isInfix
            · exact ih t hqt g0 (by rw [hgt]; exact List.mem_cons_self ..) hinf
          · exact ih t hqt g (by rw [hgt]; exact List.mem_cons_of_mem _ h)

/-- Splitting a sentinel-core-free string on the sentinel is the identity. -/
theorem splitScan_no_core : ∀ (g : List Char) f, g.length ≤ f →
    ¬ sentinelCore <:+: g → splitScan f g = [g] := by
  intro g
  induction g with
  | nil => intro f _ _; rw [splitScan_nil]
  | cons c t ih =>
    intro f hf hq
    cases f with
    | zero => simp at hf
    | succ f =>
      have hp : placeholder.isPrefixOf (c :: t) = false := by
        by_contra hb
        rw [Bool.not_eq_false] at hb
        have hpre := List.isPrefixOf_iff_prefix.mp hb
        exact hq (core_in_placeholder.trans hpre.isInfix)
      rw [splitScan_neg f hp]
      have hqt : ¬ sentinelCore <:+: t := fun hc => hq (List.infix_cons hc)
      rw [ih f (by simp at hf; omega) hqt, consHead_cons]

/-- Splitting `g ++ placeholder ++ T` peels off exactly `g` when `g` is free
of the sentinel core: the leftmost sentinel occurrence is the inserted one. -/
theorem splitScan_glue : ∀ (g : List Char) f (T : List Char),
    (g ++ (placeholder ++ T)).length ≤ f → ¬ sentinelCore <:+: g →
    splitScan f (g ++ (placeholder ++ T)) = g :: splitPlaceholder T := by
  intro g
  induction g with
  | nil =>
    intro f T hf hq
    simp only [List.nil_append] at hf ⊢
    cases f with
    | zero =>
      rw [List.length_append, placeholder_len] at hf
      omega
    | succ f =>
      have hp : placeholder.isPrefixOf (placeholder ++ T) = true :=
        List.isPrefixOf_iff_prefix.mpr (List.prefix_append ..)
      rw [splitScan_pos f hp, List.drop_left]
      have hTf : T.length ≤ f := by
        rw [List.length_append, placeholder_len] at hf
        omega
      rw [splitScan_fuel f T.length T hTf (Nat.le_refl _)]
      rfl
  | cons c t ih =>
    intro f T hf hq
    cases f with
    | zero => simp at hf
    | succ f =>
      rw [List.cons_append] at hf ⊢
      have hne : (c :: t) ≠ ([] : List Char) := by simp
      have hp : placeholder.isPrefixOf (c :: (t ++ (placeholder ++ T))) = false := by
        by_contra hb
        rw [Bool.not_eq_false] at hb
        have hpre := List.isPrefixOf_iff_prefix.mp hb
        rw [← List.cons_append] at hpre
        exact no_ph_pre hq hne hpre
      rw [splitScan_neg f hp]
      have hqt : ¬ sentinelCore <:+: t := fun hc => hq (List.infix_cons hc)
      have hft : (t ++ (placeholder ++ T)).length ≤ f := by simp at hf ⊢; omega
      rw [ih f T hft hqt, consHead_cons]

/-- Splitting the sentinel-joined gap list recovers the gaps, provided no gap
contains the sentinel core. -/
theorem splitPlaceholder_joinP : ∀ gaps : List (List Char), gaps ≠ [] →
    (∀ g ∈ gaps, ¬ sentinelCore <:+: g) →
    splitPlaceholder (joinP gaps) = gaps := by
  intro gaps
  induction gaps with
  | nil => intro h _; exact absurd rfl h
  | cons g gs ih =>
    intro _ hq
    cases gs with
    | nil =>
      show splitPlaceholder (joinP [g]) = [g]
      simp only [joinP]
      exact splitScan_no_core g g.length (Nat.le_refl _)
        (hq g (List.mem_cons_self ..))
    | cons g2 gs2 =>
      rw [joinP_pair]
      unfold splitPlaceholder
      rw [List.append_assoc]
      rw [splitScan_glue g _ (joinP (g2 :: gs2)) (by rw [← List.append_assoc]) (hq g (List.mem_cons_self ..))]
      rw [ih (by simp) (fun x hx => hq x (List.mem_cons_of_mem _ hx))]

/-! Section: The segmenter claims -/

theorem alternatesPC_pair (h l c : List Char) (rest : List Segment) :
    alternatesPC (.prose h :: .code l c :: rest) = alternatesPC rest := rfl

theorem interleave_counts (render : List Char → List Char) :
    ∀ (ms : List (List Char × List Char)) (parts : List (List Char)),
      parts.length = ms.length + 1 →
      countProse (interleave render parts ms) = ms.length + 1 ∧
        countCode (interleave render parts ms) = ms.length ∧
        alternatesPC (interleave render parts ms) = true := by
  intro ms
  induction ms with
  | nil =>
    intro parts h
    match parts, h with
    | [p], _ =>
      refine ⟨rfl, rfl, rfl⟩
  | cons lc ms ih =>
    intro parts h
    match parts with
    | p :: ps =>
      obtain ⟨l, c⟩ := lc
      have hps : ps.length = ms.length + 1 := by simpa using h
      obtain ⟨h1, h2, h3⟩ := ih ps hps
      refine ⟨?_, ?_, ?_⟩
      · simp only [interleave, countProse, List.countP_cons] at h1 ⊢
        simp [h1]
      · simp only [interleave, countCode, List.countP_cons] at h2 ⊢
        simp [h2]
      · rw [interleave, alternatesPC_pair]
        exact h3

/-- On a sentinel-core-free body, splitting the replaced text recovers
exactly the prose gaps between the regex matches. -/
theorem splitReplace_eq_gaps (md : List Char) (hq : ¬ sentinelCore <:+: md) :
    splitPlaceholder (replaceFences md) = gapScan md.length md := by
  unfold replaceFences
  rw [replaceScan_eq_joinP]
  exact splitPlaceholder_joinP _ (gapScan_ne_nil _ _) (gapScan_no_core _ _ hq)

/-- Claim C1 (amended): for every body that does not contain the sentinel
core `CODE-BLOCK-PLACEHOLDER` as a substring and has `N` well-formed fenced
code blocks (`N` regex matches), `markdownToHtml` returns exactly `N` code
segments and `N + 1` prose segments, alternating, starting and ending with a
prose segment (empty prose spans included). -/
theorem c1_segment_shape (render : List Char → List Char) (md : List Char)
    (hq : ¬ sentinelCore <:+: md) :
    countProse (markdownToHtml render md) = (fenceScan md).length + 1 ∧
      countCode (markdownToHtml render md) = (fenceScan md).length ∧
      alternatesPC (markdownToHtml render md) = true := by
  unfold markdownToHtml
  rw [splitReplace_eq_gaps md hq]
  exact interleave_counts render (fenceScan md) (gapScan md.length md)
    (gapScan_length md.length md)

/-- Claim C1 as literally stated is false: this body contains zero
well-formed fenced code blocks, yet `markdownToHtml` emits two prose
segments rather than one, because the body contains the sentinel string. -/
theorem c1_counterexample :
    fenceScan ("A ---CODE-BLOCK-PLACEHOLDER--- B".toList) = [] ∧
      countProse (markdownToHtml id ("A ---CODE-BLOCK-PLACEHOLDER--- B".toList)) ≠
        (fenceScan ("A ---CODE-BLOCK-PLACEHOLDER--- B".toList)).length + 1 := by
  decide

/-- Witness for `c1_segment_shape` at a concrete two-block body. -/
theorem c1_witness :
    countProse (markdownToHtml id ("A\n```clojure\n(+ 1 2)\n```\nB".toList)) =
        (fenceScan ("A\n```clojure\n(+ 1 2)\n```\nB".toList)).length + 1 ∧
      countCode (markdownToHtml id ("A\n```clojure\n(+ 1 2)\n```\nB".toList)) =
        (fenceScan ("A\n```clojure\n(+ 1 2)\n```\nB".toList)).length ∧
      alternatesPC (markdownToHtml id ("A\n```clojure\n(+ 1 2)\n```\nB".toList)) = true :=
  c1_segment_shape id _ (by decide)

theorem joinInterleave_consHd (c : Char) (p : List Char) (ps M : List (List Char)) :
    joinInterleave ((c :: p) :: ps) M = c :: joinInterleave (p :: ps) M := by
  cases M <;> rfl

theorem joinInterleave_gaps : ∀ f (cs : List Char),
    joinInterleave (gapScan f cs) ((scanMatches f cs).map Prod.snd) = stripScan f cs := by
  intro f
  induction f with
  | zero => intro cs; rfl
  | succ f ih =>
    intro cs
    cases htm : tryMatch cs with
    | some lcr =>
      obtain ⟨⟨l, c⟩, rest⟩ := lcr
      rw [gapScan_some f htm, scanMatches_some f htm, stripScan_some f htm]
      cases hg : gapScan f rest with
      | nil => exact absurd hg (gapScan_ne_nil f rest)
      | cons g gs =>
        have hr := ih rest
        rw [hg] at hr
        simp only [List.map_cons, joinInterleave, List.nil_append]
        rw [hr]
    | none =>
      cases cs with
      | nil => rw [gapScan_nil, scanMatches_nil, stripScan_nil]; rfl
      | cons c t =>
        rw [gapScan_none f htm, scanMatches_none f htm, stripScan_none f htm]
        cases hg : gapScan f t with
        | nil => exact absurd hg (gapScan_ne_nil f t)
        | cons g gs =>
          have hr := ih t
          rw [hg] at hr
          rw [consHead_cons, joinInterleave_consHd, hr]

/-- Claim C3 (amended): for every body free of the sentinel core,
concatenating in order the raw (pre-render) prose pieces produced by the
replace-and-split step with the raw capture-group contents of the code
blocks reconstructs the body with each fence (delimiters and language tag)
replaced by its inner content. -/
theorem c3_roundtrip (md : List Char) (hq : ¬ sentinelCore <:+: md) :
    joinInterleave (splitPlaceholder (replaceFences md))
        ((fenceScan md).map Prod.snd) = stripFences md := by
  rw [splitReplace_eq_gaps md hq]
  exact joinInterleave_gaps md.length md

/-- Claim C3 as literally stated is false: on a body equal to the sentinel
string (zero code blocks), the prose pieces concatenate to the empty string,
not to the body. -/
theorem c3_counterexample :
    joinInterleave (splitPlaceholder (replaceFences placeholder))
        ((fenceScan placeholder).map Prod.snd) ≠ stripFences placeholder := by
  decide

/-- Witness for `c3_roundtrip` at a concrete one-block body. -/
theorem c3_witness :
    joinInterleave (splitPlaceholder (replaceFences "x``` (+ 1 1) ```y".toList))
        ((fenceScan "x``` (+ 1 1) ```y".toList).map Prod.snd) =
      stripFences "x``` (+ 1 1) ```y".toList :=
  c3_roundtrip _ (by decide)

/-- The language capture group consists of lowercase letters only. -/
theorem tryMatch_lang {cs l c r : List Char}
    (h : tryMatch cs = some ((l, c), r)) : ∀ ch ∈ l, isLowerAZ ch = true := by
  unfold tryMatch at h
  match cs, h with
  | c0 :: c1 :: c2 :: rest, h =>
    simp only at h
    split at h
    · split at h
      · split at h
        · injection h with h
          injection h with h1 h2
          injection h1 with hl hc
          subst hl
          intro ch hch
          exact List.mem_takeWhile_imp hch
        · exact absurd h (by simp)
      · exact absurd h (by simp)
    · exact absurd h (by simp)

theorem isLowerAZ_not_btick {ch : Char} (h : isLowerAZ ch = true) :
    (ch == btick) = false := by
  rw [beq_eq_false_iff_ne]
  intro he
  subst he
  exact absurd h (by decide)

theorem notBT_not_btick {ch : Char} (h : notBT ch = true) :
    (ch == btick) = false := by
  unfold notBT at h
  rw [bne_iff_ne] at h
  exact beq_eq_false_iff_ne.mpr h

theorem splitScan_ne_nil : ∀ f (x : List Char), splitScan f x ≠ [] := by
  intro f x
  cases f with
  | zero => simp [splitScan]
  | succ f =>
    by_cases hp : placeholder.isPrefixOf x = true
    · rw [splitScan_pos f hp]
      simp
    · rw [Bool.not_eq_true] at hp
      cases x with
      | nil => rw [splitScan_nil]; simp
      | cons c t =>
        rw [splitScan_neg f hp]
        cases hs : splitScan f t with
        | nil => simp [consHead]
        | cons p ps => rw [consHead_cons]; simp

theorem flatten_consHead (c : Char) (L : List (List Char)) (h : L ≠ []) :
    (consHead c L).flatten = c :: L.flatten := by
  cases L with
  | nil => exact absurd rfl h
  | cons p ps => rw [consHead_cons]; simp

/-- The interleaving emits exactly one prose segment per split part,
whatever the match list. -/
theorem interleave_countProse (render : List Char → List Char) :
    ∀ (parts : List (List Char)) (ms : List (List Char × List Char)),
      countProse (interleave render parts ms) = parts.length := by
  intro parts
  induction parts with
  | nil => intro ms; cases ms <;> rfl
  | cons p ps ih =>
    intro ms
    cases ms with
    | nil =>
      have h := ih []
      simp only [interleave, countProse, List.countP_cons] at h ⊢
      simp [h]
    | cons lc ms' =>
      obtain ⟨l, c⟩ := lc
      have h := ih ms'
      simp only [interleave, countProse, List.countP_cons] at h ⊢
      simp [h]

/-- Every body is exactly the alternation of its prose gaps and the full
texts of its well-formed fenced blocks: nothing is lost or mangled, and any
malformed or unterminated fence lies verbatim inside a prose gap. -/
theorem gapJoin_full : ∀ f (cs : List Char), cs.length ≤ f →
    joinInterleave (gapScan f cs)
      ((scanMatches f cs).map fun lc => matchText lc.1 lc.2) = cs := by
  intro f
  induction f with
  | zero =>
    intro cs hf
    have : cs = [] := List.eq_nil_of_length_eq_zero (Nat.le_zero.mp hf)
    subst this
    rfl
  | succ f ih =>
    intro cs hf
    cases htm : tryMatch cs with
    | some lcr =>
      obtain ⟨⟨l, c⟩, rest⟩ := lcr
      rw [gapScan_some f htm, scanMatches_some f htm]
      obtain ⟨hs, -⟩ := tryMatch_shape htm
      have hlen := tryMatch_length htm
      have hrest : rest.length ≤ f := by omega
      simp only [List.map_cons, joinInterleave, List.nil_append]
      rw [ih rest hrest, hs]
      simp [matchText]
    | none =>
      cases cs with
      | nil => rw [gapScan_nil, scanMatches_nil]; rfl
      | cons c t =>
        rw [gapScan_none f htm, scanMatches_none f htm]
        cases hg : gapScan f t with
        | nil => exact absurd hg (gapScan_ne_nil f t)
        | cons g gs =>
          have hr := ih t (by simp at hf; omega)
          rw [hg] at hr
          rw [consHead_cons, joinInterleave_consHd, hr]

/-- Splitting on the sentinel conserves backticks: the sentinel contains
none, so every backtick of the split input reaches some piece. -/
theorem countBT_flatten_split : ∀ f (x : List Char), x.length ≤ f →
    countBT (splitScan f x).flatten = countBT x := by
  intro f
  induction f with
  | zero =>
    intro x hf
    have : x = [] := List.eq_nil_of_length_eq_zero (Nat.le_zero.mp hf)
    subst this
    rfl
  | succ f ih =>
    intro x hf
    by_cases hp : placeholder.isPrefixOf x = true
    · rw [splitScan_pos f hp]
      obtain ⟨t, ht⟩ := List.isPrefixOf_iff_prefix.mp hp
      subst ht
      rw [List.drop_left]
      have htf : t.length ≤ f := by
        rw [List.length_append, placeholder_len] at hf
        omega
      simp only [List.flatten_cons, List.nil_append]
      rw [ih t htf]
      unfold countBT
      rw [List.countP_append]
      have h0 : countBT placeholder = 0 := by decide
      unfold countBT at h0
      omega
    · rw [Bool.not_eq_true] at hp
      cases x with
      | nil => rw [splitScan_nil]; rfl
      | cons c t =>
        rw [splitScan_neg f hp, flatten_consHead c _ (splitScan_ne_nil f t)]
        have h := ih t (by simp at hf; omega)
        unfold countBT at h ⊢
        rw [List.countP_cons, List.countP_cons]
        omega

/-- Replacement conserves backticks up to the six delimiters of each
well-formed match: language tags and contents are backtick-free. -/
theorem countBT_replace : ∀ f (cs : List Char), cs.length ≤ f →
    countBT cs = countBT (replaceScan f cs) + 6 * (scanMatches f cs).length := by
  intro f
  induction f with
  | zero =>
    intro cs hf
    have : cs = [] := List.eq_nil_of_length_eq_zero (Nat.le_zero.mp hf)
    subst this
    rfl
  | succ f ih =>
    intro cs hf
    cases htm : tryMatch cs with
    | some lcr =>
      obtain ⟨⟨l, c⟩, rest⟩ := lcr
      rw [replaceScan_some f htm, scanMatches_some f htm]
      obtain ⟨hs, hc⟩ := tryMatch_shape htm
      have hlan := tryMatch_lang htm
      have hlen := tryMatch_length htm
      have hrest := ih rest (by omega)
      have hl0 : countBT l = 0 := by
        unfold countBT
        rw [List.countP_eq_zero]
        intro ch hch
        simp [isLowerAZ_not_btick (hlan ch hch)]
      have hc0 : countBT c = 0 := by
        unfold countBT
        rw [List.countP_eq_zero]
        intro ch hch
        simp [notBT_not_btick (hc ch hch)]
      have hP0 : countBT placeholder = 0 := by decide
      rw [hs]
      unfold countBT at hl0 hc0 hP0 hrest ⊢
      simp only [List.countP_cons, List.countP_append, beq_self_eq_true,
        if_true, List.length_cons]
      omega
    | none =>
      cases cs with
      | nil => rfl
      | cons c t =>
        rw [replaceScan_none f htm, scanMatches_none f htm]
        have h := ih t (by simp at hf; omega)
        unfold countBT at h ⊢
        rw [List.countP_cons, List.countP_cons]
        omega

/-- Claim C7: the segmenter is total and degrades gracefully on every body,
with no well-formedness hypothesis.  (i) Every body is exactly the
alternation of its prose gaps with the full texts of its well-formed fenced
blocks, so the text of a malformed or unterminated fence (odd delimiter
count included) lies verbatim inside a prose gap rather than aborting the
scan.  (ii) Through the actual replace-and-split pipeline, backticks are
conserved: every backtick not consumed as a delimiter of a well-formed
block — in particular the delimiters of an unterminated fence — reaches the
prose pieces handed to the renderer.  (iii) Segmentation always returns one
prose segment per split piece, hence at least one segment: it cannot fail. -/
theorem c7_graceful (render : List Char → List Char) (md : List Char) :
    joinInterleave (gapScan md.length md)
        ((fenceScan md).map fun lc => matchText lc.1 lc.2) = md ∧
      countBT md =
        countBT ((splitPlaceholder (replaceFences md)).flatten) +
          6 * (fenceScan md).length ∧
      countProse (markdownToHtml render md) =
        (splitPlaceholder (replaceFences md)).length ∧
      1 ≤ countProse (markdownToHtml render md) := by
  have h1 := gapJoin_full md.length md (Nat.le_refl _)
  have h2 : countBT ((splitPlaceholder (replaceFences md)).flatten) =
      countBT (replaceFences md) :=
    countBT_flatten_split (replaceFences md).length (replaceFences md) (Nat.le_refl _)
  have h3 := countBT_replace md.length md (Nat.le_refl _)
  have h4 : countProse (markdownToHtml render md) =
      (splitPlaceholder (replaceFences md)).length :=
    interleave_countProse render _ _
  refine ⟨h1, ?_, h4, ?_⟩
  · rw [h2]
    exact h3
  · rw [h4]
    exact List.length_pos.mpr (splitScan_ne_nil _ _)

/-- Claim C9: the sentinel is an ordinary string: a body with zero fenced
code blocks that happens to contain the literal text
`---CODE-BLOCK-PLACEHOLDER---` is split at that occurrence, so
`markdownToHtml` returns more than one prose segment. -/
theorem c9_sentinel_collision :
    fenceScan ("intro ---CODE-BLOCK-PLACEHOLDER--- outro".toList) = [] ∧
      placeholder <:+: ("intro ---CODE-BLOCK-PLACEHOLDER--- outro".toList) ∧
      1 < countProse (markdownToHtml id ("intro ---CODE-BLOCK-PLACEHOLDER--- outro".toList)) := by
  refine ⟨by decide, ⟨"intro ".toList, " outro".toList, by decide⟩, by decide⟩

/-- Trimming only removes characters. -/
theorem trimL_mem {ch : Char} {c : List Char} (h : ch ∈ trimL c) : ch ∈ c := by
  unfold trimL at h
  rw [List.mem_reverse] at h
  have h1 : ch ∈ (c.dropWhile Char.isWhitespace).reverse :=
    (List.dropWhile_sublist _).mem h
  rw [List.mem_reverse] at h1
  exact (List.dropWhile_sublist _).mem h1

/-- Every code segment of the interleaving carries the trimmed content of
one of the scanned matches with the same language tag. -/
theorem interleave_code_mem (render : List Char → List Char) {l c : List Char} :
    ∀ (parts : List (List Char)) (ms : List (List Char × List Char)),
      Segment.code l c ∈ interleave render parts ms →
      ∃ c₀, (l, c₀) ∈ ms ∧ c = trimL c₀ := by
  intro parts
  induction parts with
  | nil => intro ms h; simp [interleave] at h
  | cons p ps ih =>
    intro ms h
    cases ms with
    | nil =>
      rw [interleave] at h
      rcases List.mem_cons.mp h with h | h
      · exact absurd h (by simp)
      · exact ih [] h
    | cons lc ms' =>
      obtain ⟨l', c'⟩ := lc
      rw [interleave] at h
      rcases List.mem_cons.mp h with h | h
      · exact absurd h (by simp)
      · rcases List.mem_cons.mp h with h | h
        · injection h with h1 h2
          exact ⟨c', by rw [h1]; exact List.mem_cons_self .., h2⟩
        · obtain ⟨c₀, hm, he⟩ := ih ms' h
          exact ⟨c₀, List.mem_cons_of_mem _ hm, he⟩

/-- Every scanned match content is backtick-free: the regex content class
excludes the backtick. -/
theorem scanMatches_content : ∀ f (cs : List Char) (l c : List Char),
    (l, c) ∈ scanMatches f cs → ∀ ch ∈ c, notBT ch = true := by
  intro f
  induction f with
  | zero => intro cs l c h; simp [scanMatches] at h
  | succ f ih =>
    intro cs l c h
    cases htm : tryMatch cs with
    | some lcr =>
      obtain ⟨⟨l', c'⟩, rest⟩ := lcr
      rw [scanMatches_some f htm] at h
      rcases List.mem_cons.mp h with h | h
      · obtain ⟨-, hbt⟩ := tryMatch_shape htm
        have hc : c = c' := (Prod.ext_iff.mp h).2
        rw [hc]
        exact hbt
      · exact ih rest l c h
    | none =>
      cases cs with
      | nil => rw [scanMatches_nil] at h; simp at h
      | cons ch t =>
        rw [scanMatches_none f htm] at h
        exact ih t l c h

/-- Claim C10: every code segment emitted by `markdownToHtml` has a content
string that contains no backtick character. -/
theorem c10_no_backtick (render : List Char → List Char) (md l c : List Char)
    (h : Segment.code l c ∈ markdownToHtml render md) :
    ∀ ch ∈ c, ch ≠ btick := by
  intro ch hch
  unfold markdownToHtml at h
  obtain ⟨c₀, hm, he⟩ := interleave_code_mem render _ _ h
  have hch0 : ch ∈ c₀ := trimL_mem (he ▸ hch)
  have := scanMatches_content md.length md l c₀ hm ch hch0
  simpa [notBT, bne_iff_ne] using this

/-- Witness for `c10_no_backtick`: the character `+` of the code segment
emitted for a concrete one-block body is not a backtick. -/
theorem c10_witness : ('+' : Char) ≠ btick :=
  c10_no_backtick id ("x```clojure (+ 1 2) ```y".toList)
    ("clojure".toList) ("(+ 1 2)".toList) (by decide) '+' (by decide)

/-- Claim C2: a code block tagged with the reserved marker is not evaluable
and its displayed language is the tag with the `evaloff` suffix stripped
(`clojure`); any other tag, the empty one included, stays evaluable with its
raw tag displayed. -/
theorem c2_eval_flag (lang content : List Char) :
    (lang = evalOffTag →
        (renderCodeBlock lang content).allowEval = false ∧
        (renderCodeBlock lang content).language = clojureTag ∧
        (renderCodeBlock lang content).language ++ "evaloff".toList = lang) ∧
      (lang ≠ evalOffTag →
        (renderCodeBlock lang content).allowEval = true ∧
        (renderCodeBlock lang content).language = lang) := by
  constructor
  · intro h
    subst h
    refine ⟨by simp [renderCodeBlock], by simp [renderCodeBlock], ?_⟩
    simp only [renderCodeBlock, if_pos rfl]
    decide
  · intro h
    constructor
    · simp [renderCodeBlock, h]
    · simp [renderCodeBlock, h]

/-- Witness for `c2_eval_flag` at the marker tag and at an ordinary tag. -/
theorem c2_witness :
    ((renderCodeBlock evalOffTag "(+ 1 2)".toList).allowEval = false ∧
        (renderCodeBlock evalOffTag "(+ 1 2)".toList).language = clojureTag ∧
        (renderCodeBlock evalOffTag "(+ 1 2)".toList).language ++ "evaloff".toList = evalOffTag) ∧
      ((renderCodeBlock [] "(+ 1 2)".toList).allowEval = true ∧
        (renderCodeBlock [] "(+ 1 2)".toList).language = []) :=
  ⟨(c2_eval_flag evalOffTag _).1 rfl, (c2_eval_flag [] _).2 (by decide)⟩

/-- Claim C8: requesting a chapter/part pair whose file is missing fails with
`NotFoundError` naming the computed path, and the result of loading any
chapter/part pair depends only on the filesystem content at that pair's own
path, so the failure cannot affect any other load. -/
theorem c8_not_found (read read' : List Char → Option FileMeta)
    (ch part ch' part' : List Char)
    (h : read (chapterPath ch part) = none)
    (hsame : read' (chapterPath ch' part') = read (chapterPath ch' part')) :
    getChapter read ch part = .error (.notFound (chapterPath ch part)) ∧
      getChapter read' ch' part' = getChapter read ch' part' := by
  constructor
  · unfold getChapter
    rw [h]
  · unfold getChapter
    rw [hsame]

/-- Witness for `c8_not_found`: a filesystem missing `intro/missing.md`, and
a second filesystem that adds that file; loading `intro/readme.md` is
unchanged between the two. -/
theorem c8_witness :
    getChapter
        (fun p => if p = "intro/readme.md".toList then
          some ⟨"Intro".toList, 1, "body".toList⟩ else none)
        "intro".toList "missing".toList =
      .error (.notFound (chapterPath "intro".toList "missing".toList)) ∧
      getChapter
          (fun p => if p = "intro/readme.md".toList then
            some ⟨"Intro".toList, 1, "body".toList⟩
          else if p = "intro/missing.md".toList then
            some ⟨"Missing".toList, 9, "later".toList⟩ else none)
          "intro".toList "readme".toList =
        getChapter
          (fun p => if p = "intro/readme.md".toList then
            some ⟨"Intro".toList, 1, "body".toList⟩ else none)
          "intro".toList "readme".toList :=
  c8_not_found _ _ _ _ _ _ (by decide) (by decide)

/-! Section: Sorting: stability and the chapter-tree claims -/

theorem mem_insertLe (le : α → α → Bool) (x y : α) :
    ∀ m : List α, y ∈ insertLe le x m ↔ y = x ∨ y ∈ m := by
  intro m
  induction m with
  | nil => simp [insertLe]
  | cons z zs ih =>
    unfold insertLe
    by_cases hle : le x z = true
    · rw [if_pos hle]
      simp
    · rw [if_neg hle]
      simp only [List.mem_cons, ih]
      tauto

theorem mem_sortLe (le : α → α → Bool) (y : α) :
    ∀ l : List α, y ∈ sortLe le l ↔ y ∈ l := by
  intro l
  induction l with
  | nil => simp [sortLe]
  | cons x xs ih =>
    unfold sortLe
    rw [mem_insertLe]
    simp [ih]

/-- Claim C5 states the spec's intent (it calls stable tie order a testable
property), but the code does not deliver it: the comparator `jsCompare`
passed to `Array.prototype.sort` never returns 0, and on two documents with
equal `sequence` it returns -1 for both argument orders.  It is therefore
not a consistent comparison function in the sense of ECMA-262
(Array.prototype.sort), which then leaves the sort order
implementation-defined — V8's TimSort reverses runs of tied elements — so
preservation of discovery order for equal sequences is not a property of
the program.  The theorem evaluates the comparator in general (it is never
0) and at the failing input: two documents that tie at sequence 5. -/
theorem c5_comparator_inconsistent :
    (∀ a b : Document, jsCompare a b = 1 ∨ jsCompare a b = -1) ∧
      jsCompare ⟨"X".toList, 5, "a/x".toList, "bx".toList⟩
          ⟨"Y".toList, 5, "a/y".toList, "by".toList⟩ = -1 ∧
      jsCompare ⟨"Y".toList, 5, "a/y".toList, "by".toList⟩
          ⟨"X".toList, 5, "a/x".toList, "bx".toList⟩ = -1 := by
  refine ⟨?_, by decide, by decide⟩
  intro a b
  unfold jsCompare
  by_cases h : a.sequence > b.sequence
  · rw [if_pos h]
    left
    rfl
  · rw [if_neg h]
    right
    rfl

/-- A list permutation-equal to a two-element list is one of its two
orderings. -/
theorem perm_pair {α : Type} {l : List α} {a b : α}
    (h : l.Perm [a, b]) : l = [a, b] ∨ l = [b, a] := by
  have hlen : l.length = 2 := by simpa using h.length_eq
  match l, hlen with
  | [x, y], _ =>
    have hx : x = a ∨ x = b := by
      have hm : x ∈ [a, b] := h.mem_iff.mp (by simp)
      simpa using hm
    rcases hx with hx | hx
    · subst hx
      left
      have h2 : [y].Perm [b] := (List.perm_cons x).mp h
      rw [List.perm_singleton.mp h2]
    · subst hx
      right
      have h1 : (x :: [y]).Perm (x :: [a]) := h.trans (List.Perm.swap x a [])
      have h2 : [y].Perm [a] := (List.perm_cons x).mp h1
      rw [List.perm_singleton.mp h2]

theorem tree_unfold (files : List (List Char)) (read : List Char → Option FileMeta) :
    getChaptersTree ⟨files, read⟩ =
      (do
        let nodes ← mapExcept (chapterNode read (pagesOf files)) (dirsOf files)
        pure (sortLe nodeLe nodes)) := rfl

/-- Claim C4: whatever order the filesystem enumerates the C4 scenario in,
the chapter's parts come out ordered by sequence: [seq-1, seq-2]. -/
theorem c4_parts_sorted (files : List (List Char)) (hperm : files.Perm c4files) :
    getChaptersTree ⟨files, c4read⟩ =
      .ok [⟨⟨"Intro".toList, 0, "intro/readme".toList, "i".toList⟩,
        [⟨"One".toList, 1, "intro/one".toList, "p1".toList⟩,
         ⟨"Two".toList, 2, "intro/two".toList, "p2".toList⟩]⟩] := by
  have hdirs : dirsOf files = ["intro".toList] := by
    have h1 : (dirsOf files).Perm (dirsOf c4files) := List.Perm.filter _ hperm
    rw [(by decide : dirsOf c4files = ["intro".toList])] at h1
    exact List.perm_singleton.mp h1
  have hpages : (pagesOf files).Perm (pagesOf c4files) :=
    List.Perm.filter _ (List.Perm.filter _ hperm)
  rw [(by decide :
    pagesOf c4files = ["intro/two.md".toList, "intro/one.md".toList])] at hpages
  rcases perm_pair hpages with hp | hp
  · rw [tree_unfold, hdirs, hp]
    decide
  · rw [tree_unfold, hdirs, hp]
    decide

/-- Witness for `c4_parts_sorted` at a shuffled enumeration order. -/
theorem c4_witness :
    getChaptersTree
        ⟨["intro/one.md".toList, "intro".toList, "intro/two.md".toList,
          "intro/readme.md".toList], c4read⟩ =
      .ok [⟨⟨"Intro".toList, 0, "intro/readme".toList, "i".toList⟩,
        [⟨"One".toList, 1, "intro/one".toList, "p1".toList⟩,
         ⟨"Two".toList, 2, "intro/two".toList, "p2".toList⟩]⟩] :=
  c4_parts_sorted _ (by decide)

/-! Section: Claim C6: page-to-chapter assignment -/

theorem except_bind_ok {α β ε : Type} {x : Except ε α} {f : α → Except ε β}
    {c : β} (h : (x >>= f) = .ok c) : ∃ b, x = .ok b ∧ f b = .ok c := by
  cases x with
  | ok b => exact ⟨b, rfl, h⟩
  | error e =>
    simp only [Bind.bind, Except.bind] at h
    exact absurd h (by simp)

theorem except_pure_ok {β ε : Type} {b c : β}
    (h : (pure b : Except ε β) = .ok c) : c = b := by
  simp only [pure, Except.pure] at h
  injection h with h
  exact h.symm

theorem mapExcept_ok_mem {α β ε : Type} {f : α → Except ε β} :
    ∀ {xs : List α} {ys : List β}, mapExcept f xs = .ok ys →
      ∀ y ∈ ys, ∃ x ∈ xs, f x = .ok y := by
  intro xs
  induction xs with
  | nil =>
    intro ys h y hy
    unfold mapExcept at h
    injection h with h
    subst h
    simp at hy
  | cons x xs ih =>
    intro ys h y hy
    unfold mapExcept at h
    obtain ⟨b, hb, h2⟩ := except_bind_ok h
    obtain ⟨bs, hbs, h3⟩ := except_bind_ok h2
    have hys : ys = b :: bs := except_pure_ok h3
    subst hys
    rcases List.mem_cons.mp hy with hy | hy
    · subst hy
      exact ⟨x, List.mem_cons_self .., hb⟩
    · obtain ⟨x', hx', hfx⟩ := ih hbs y hy
      exact ⟨x', List.mem_cons_of_mem _ hx', hfx⟩

/-- Claim C6 (amended): every document in a chapter's `pages` list was loaded
from a page path of which the chapter directory name is a string prefix
(`page.startsWith(dir)`) — not necessarily the chapter equal to the page's
first path segment, and possibly more than one chapter. -/
theorem c6_startswith_placement (fs : FS) (tree : List ChapterNode)
    (h : getChaptersTree fs = .ok tree) :
    ∀ node ∈ tree, ∃ d ∈ dirsOf fs.files,
      chapterNode fs.read (pagesOf fs.files) d = .ok node ∧
      ∀ doc ∈ node.pages, ∃ p ∈ pagesOf fs.files,
        d.isPrefixOf p = true ∧ getChapterByPath fs.read p = .ok doc := by
  intro node hn
  unfold getChaptersTree at h
  obtain ⟨nodes, hns, hpure⟩ := except_bind_ok h
  have htree : tree = sortLe nodeLe nodes := except_pure_ok hpure
  subst htree
  have hn' : node ∈ nodes := (mem_sortLe nodeLe node nodes).mp hn
  obtain ⟨d, hd, hnode⟩ := mapExcept_ok_mem hns node hn'
  refine ⟨d, hd, hnode, ?_⟩
  intro doc hdoc
  unfold chapterNode at hnode
  obtain ⟨dd, hdd, h2⟩ := except_bind_ok hnode
  obtain ⟨ps, hps, h3⟩ := except_bind_ok h2
  have hnodeeq : node = ⟨dd, sortBySequence ps⟩ := except_pure_ok h3
  subst hnodeeq
  have hdoc' : doc ∈ ps := by
    have := hdoc
    simp only [sortBySequence] at this
    exact (mem_sortLe seqLe doc ps).mp this
  obtain ⟨p, hp, hload⟩ := mapExcept_ok_mem hps doc hdoc'
  have hpf := List.mem_filter.mp hp
  exact ⟨p, hpf.1, hpf.2, hload⟩

/-- Claim C6 as literally stated is false: the page `intro2/a.md`, whose
first path segment is `intro2`, is placed in the parts list of chapter
`intro` as well, because `"intro2/a.md".startsWith("intro")` holds. -/
theorem c6_counterexample :
    getChaptersTree ⟨c6files, c6read⟩ =
      .ok [⟨⟨"Intro".toList, 0, "intro/readme".toList, "i".toList⟩,
            [⟨"A".toList, 2, "intro2/a".toList, "a".toList⟩]⟩,
           ⟨⟨"Intro2".toList, 1, "intro2/readme".toList, "j".toList⟩,
            [⟨"A".toList, 2, "intro2/a".toList, "a".toList⟩]⟩] ∧
      (splitOnChar slash "intro2/a".toList).head? = some "intro2".toList ∧
      "intro2".toList ≠ "intro".toList := by
  refine ⟨by decide, by decide, by decide⟩

/-- Witness for `c6_startswith_placement` on the counterexample filesystem:
chapter `intro` carries the document of page `intro2/a.md`. -/
theorem c6_witness :
    ∃ d ∈ dirsOf c6files,
      chapterNode c6read (pagesOf c6files) d =
        .ok ⟨⟨"Intro".toList, 0, "intro/readme".toList, "i".toList⟩,
          [⟨"A".toList, 2, "intro2/a".toList, "a".toList⟩]⟩ ∧
      ∀ doc ∈ [(⟨"A".toList, 2, "intro2/a".toList, "a".toList⟩ : Document)],
        ∃ p ∈ pagesOf c6files,
          d.isPrefixOf p = true ∧ getChapterByPath c6read p = .ok doc :=
  c6_startswith_placement ⟨c6files, c6read⟩
    [⟨⟨"Intro".toList, 0, "intro/readme".toList, "i".toList⟩,
       [⟨"A".toList, 2, "intro2/a".toList, "a".toList⟩]⟩,
     ⟨⟨"Intro2".toList, 1, "intro2/readme".toList, "j".toList⟩,
       [⟨"A".toList, 2, "intro2/a".toList, "a".toList⟩]⟩] (by decide)
    ⟨⟨"Intro".toList, 0, "intro/readme".toList, "i".toList⟩,
      [⟨"A".toList, 2, "intro2/a".toList, "a".toList⟩]⟩ (by decide)

end LearnClojure
